import Mathlib

/-!
Shallow embedding of the git-heat repository (src/lib.rs and src/main.rs).

Modelling choices:
* `PathBuf` is modeled as `String`.
* Rust `HashMap` is modeled as an association list with no duplicate keys:
  `lookupT` reads the first matching entry and `insertT` replaces it in place,
  which agrees with `HashMap` observationally.
* `u32` counts are modeled as `Nat` (no claim concerns overflow; counts are
  bounded by the number of deltas processed).
* A failing `unwrap` and a divergent loop are both modeled as `none`;
  successful execution is `some`.
* `OffsetDateTime` is modeled by the physical instant it denotes, as seconds
  since the Unix epoch (`Int`): `to_offset` never changes the instant and the
  order on `OffsetDateTime` compares instants, so the attached offset is
  irrelevant to every claim considered here.
-/

set_option autoImplicit false

namespace GitHeat

abbrev Path := String

abbrev RenameTable := List (Path × Path)

abbrev ChangeTable := List (Path × Nat)

/-- First-match association-list lookup: the model of `HashMap::get`. -/
def lookupT {β : Type} : List (Path × β) → Path → Option β
  | [], _ => none
  | (k, v) :: rest, p => if k = p then some v else lookupT rest p

/-- In-place insert-or-replace: the model of `HashMap::insert`. -/
def insertT {β : Type} : List (Path × β) → Path → β → List (Path × β)
  | [], k, v => [(k, v)]
  | (k', v') :: rest, k, v =>
    if k' = k then (k, v) :: rest else (k', v') :: insertT rest k v

/-- Keys are pairwise distinct, the representation invariant of `HashMap`. -/
def NodupKeys {β : Type} (m : List (Path × β)) : Prop := (m.map Prod.fst).Nodup

/-- Add `v` to the entry of `k`, treating an absent entry as `0`: the model of
`*m.entry(k).or_default() += v`. -/
def bumpBy (m : ChangeTable) (k : Path) (v : Nat) : ChangeTable :=
  insertT m k ((lookupT m k).getD 0 + v)

/-- Increment the entry of `k` by one, the counting step of `process_delta`. -/
def bump (m : ChangeTable) (k : Path) : ChangeTable := bumpBy m k 1

/-- The delta kinds of `git2::Delta` that occur in `process_delta`. -/
inductive Delta where
  | unmodified
  | ignored
  | untracked
  | unreadable
  | conflicted
  | added
  | copied
  | deleted
  | renamed
  | typechange
  | modified
deriving DecidableEq

/-- One path-level change reported by the diff: `old_file().path()`,
`new_file().path()` and `status()` of a `git2::DiffDelta`. -/
structure DiffDelta where
  old : Option Path
  new : Option Path
  status : Delta
deriving DecidableEq

/-- One step of the `while let Some(renamed) = renames.get(&filename)` loop,
with explicit fuel; `none` means the fuel ran out before the loop stopped. -/
def resolveChain (t : RenameTable) : Nat → Path → Option Path
  | 0, _ => none
  | fuel + 1, p =>
    match lookupT t p with
    | none => some p
    | some q => resolveChain t fuel q

/-- The rename-chain resolution loop of `process_delta` for a modified delta.
Fuel `t.length + 1` is exact: it is proved below that whenever iterating the
table from `p` reaches a non-key the chain is shorter than the fuel, so
`resolve` returns `none` exactly when the source loop never terminates. -/
def resolve (t : RenameTable) (p : Path) : Option Path :=
  resolveChain t (t.length + 1) p

/-- The per-delta classification of `process_delta` in src/lib.rs. -/
def process_delta (d : DiffDelta) (renames : RenameTable) (changes : ChangeTable) :
    Option (RenameTable × ChangeTable) :=
  match d.status with
  | .unmodified | .ignored | .untracked | .unreadable | .conflicted =>
    some (renames, changes)
  | .added | .copied =>
    match d.new with
    | none => none
    | some p => some (renames, bump changes p)
  | .deleted =>
    match d.old with
    | none => none
    | some p => some (renames, bump changes p)
  | .renamed | .typechange =>
    match d.old, d.new with
    | some po, some pn => some (insertT renames po pn, bump changes pn)
    | _, _ => none
  | .modified =>
    match d.old with
    | none => none
    | some p =>
      match resolve renames p with
      | none => none
      | some q => some (renames, bump changes q)

/-- `diff.foreach` applying `process_delta` to every delta in order. -/
def run_deltas : List DiffDelta → RenameTable → ChangeTable →
    Option (RenameTable × ChangeTable)
  | [], renames, changes => some (renames, changes)
  | d :: rest, renames, changes =>
    match process_delta d renames changes with
    | none => none
    | some (r, c) => run_deltas rest r c

/-- `get_files_changed` in src/lib.rs: fold every delta of one diff into a
fresh change table, threading the shared rename table. -/
def get_files_changed (deltas : List DiffDelta) (renames : RenameTable) :
    Option (RenameTable × ChangeTable) :=
  run_deltas deltas renames []

/-- The delta kinds that contribute one count in `process_delta`. -/
def isCounted (d : DiffDelta) : Bool :=
  match d.status with
  | .added | .copied | .deleted | .renamed | .typechange | .modified => true
  | _ => false

/-- The discarded delta kinds of `process_delta`. -/
def isDiscarded (d : DiffDelta) : Bool :=
  match d.status with
  | .unmodified | .ignored | .untracked | .unreadable | .conflicted => true
  | _ => false

/-- A git2 Time value: seconds since the Unix epoch plus a UTC offset in
minutes. -/
structure GTime where
  seconds : Int
  offsetMinutes : Int
deriving DecidableEq

/-- A commit as far as the selector is concerned: an identity and its
authorship time. -/
structure Commit where
  id : Nat
  time : GTime
deriving DecidableEq

/-- Smallest Unix timestamp accepted by `OffsetDateTime::from_unix_timestamp`
in the time crate (midnight of -9999-01-01 UTC). -/
def UNIX_MIN : Int := -377705116800

/-- Largest Unix timestamp accepted by `OffsetDateTime::from_unix_timestamp`
in the time crate (9999-12-31 23:59:59 UTC). -/
def UNIX_MAX : Int := 253402300799

/-- Largest whole-second offset accepted by `UtcOffset::from_whole_seconds`
(23:59:59). -/
def OFFSET_MAX : Int := 86399

/-- `OffsetDateTime::from_unix_timestamp`, with the datetime represented by
its physical instant in seconds. -/
def from_unix_timestamp (s : Int) : Option Int :=
  if UNIX_MIN ≤ s ∧ s ≤ UNIX_MAX then some s else none

/-- `UtcOffset::from_whole_seconds`. -/
def from_whole_seconds (s : Int) : Option Int :=
  if -OFFSET_MAX ≤ s ∧ s ≤ OFFSET_MAX then some s else none

/-- `git2_time_to_offset` in src/lib.rs: build the datetime, build the offset,
then reattach the offset. `to_offset` keeps the physical instant, so the
result is represented by the same instant. -/
def git2_time_to_offset (t : GTime) : Option Int :=
  match from_unix_timestamp t.seconds with
  | none => none
  | some dt =>
    match from_whole_seconds (t.offsetMinutes * 60) with
    | none => none
    | some _ => some dt

/-- `commits_in_date_range` in src/lib.rs, applied to the commit sequence the
revwalk produces (the backend walk itself is external): keep the commits
whose time normalizes, then keep those whose instant lies inside the
inclusive window. Normalizing the bounds to UTC keeps their instants. -/
def commits_in_date_range (fromT toT : Int) (walk : List Commit) : List Commit :=
  ((walk.filterMap fun c =>
      (git2_time_to_offset c.time).map fun t => (c, t)).filter
    fun ct => decide (fromT ≤ ct.2 ∧ ct.2 ≤ toT)).map Prod.fst

/-- `pair_commits` in src/lib.rs: one-element lookahead pairing. -/
def pair_commits : List Commit → List (Commit × Option Commit)
  | [] => []
  | [a] => [(a, none)]
  | a :: b :: rest => (a, some b) :: pair_commits (b :: rest)

/-- The binary merge of change count tables in main.rs: fold every entry of
the second table into the first with the add-or-insert loop. -/
def mergeT (acc other : ChangeTable) : ChangeTable :=
  other.foldl (fun a kv => bumpBy a kv.1 kv.2) acc

/-- `reduce_with(..).unwrap_or_default()` in main.rs: merge a collection of
tables, the empty collection giving the empty table. -/
def reduce_with : List ChangeTable → ChangeTable
  | [] => []
  | t :: rest => rest.foldl mergeT t

/-- Observational equality of tables: same entry (including presence) at
every path, which is equality of the underlying `HashMap`. -/
def tablesEq (m₁ m₂ : ChangeTable) : Prop := ∀ p, lookupT m₁ p = lookupT m₂ p

/-- Total of all counts stored in a change table. -/
def sumValues (m : ChangeTable) : Nat := (m.map Prod.snd).sum

/-- The aggregation pipeline of main.rs applied to the diffs in the order the
pairer yields them (newest commit first): every diff is folded through
`get_files_changed` against the shared rename table, collecting one change
table per diff. -/
def run_diffs : List (List DiffDelta) → RenameTable →
    Option (RenameTable × List ChangeTable)
  | [], renames => some (renames, [])
  | d :: rest, renames =>
    match get_files_changed d renames with
    | none => none
    | some (r, ch) =>
      match run_diffs rest r with
      | none => none
      | some (rf, chs) => some (rf, ch :: chs)

/-- End-to-end aggregation: run every diff against an initially empty rename
table, then merge the per-diff tables with the reducer of main.rs. -/
def pipeline (diffs : List (List DiffDelta)) : Option ChangeTable :=
  match run_diffs diffs [] with
  | none => none
  | some (_, chs) => some (reduce_with chs)

/-- One replacement step of the rename-resolution loop: the table maps `a`
directly to `b`. -/
def renStep (t : RenameTable) (a b : Path) : Prop := lookupT t a = some b

/-- The trajectory of the rename-resolution loop: starting at `p`, the loop
visits exactly the paths in `l` and stops at `q` (`q` is `p` itself when `l`
is empty). -/
def IsChain (t : RenameTable) : Path → List Path → Path → Prop
  | p, [], q => p = q
  | p, x :: xs, q => lookupT t p = some x ∧ IsChain t x xs q

section ClaimC1

/-! Claim C1: the per-kind classification of `process_delta`. -/

lemma lookupT_insertT {β : Type} (m : List (Path × β)) (k : Path) (v : β) (p : Path) :
    lookupT (insertT m k v) p = if k = p then some v else lookupT m p := by
  induction m with
  | nil => simp [insertT, lookupT]
  | cons hd tl ih =>
    obtain ⟨k', v'⟩ := hd
    by_cases hk : k' = k
    · subst hk
      by_cases hp : k' = p <;> simp [insertT, lookupT, hp]
    · simp only [insertT, if_neg hk, lookupT]
      by_cases hp : k' = p
      · subst hp
        have : ¬ k = k' := fun h => hk h.symm
        simp [this, lookupT]
      · simp [hp, ih]

lemma lookupT_bumpBy (m : ChangeTable) (k : Path) (v : Nat) (p : Path) :
    lookupT (bumpBy m k v) p =
      if k = p then some ((lookupT m k).getD 0 + v) else lookupT m p := by
  simp [bumpBy, lookupT_insertT]

lemma lookupT_bump (m : ChangeTable) (k : Path) (p : Path) :
    lookupT (bump m k) p =
      if k = p then some ((lookupT m k).getD 0 + 1) else lookupT m p := by
  simp [bump, lookupT_bumpBy]

end ClaimC1

/-- C1: a delta of kind unmodified, ignored, untracked, unreadable or
conflicted changes neither table; an added or copied delta counts the new
path; a deleted delta counts the old path; a renamed or type-changed delta
records `renames[old] = new` and counts the new path; and counting a path
always means incrementing its entry by one, defaulting to zero when absent,
leaving every other entry unchanged. -/
theorem c1_delta_classification :
    (∀ (d : DiffDelta) (r : RenameTable) (c : ChangeTable),
      isDiscarded d = true → process_delta d r c = some (r, c)) ∧
    (∀ (d : DiffDelta) (r : RenameTable) (c : ChangeTable) (p : Path),
      (d.status = Delta.added ∨ d.status = Delta.copied) → d.new = some p →
      process_delta d r c = some (r, bump c p)) ∧
    (∀ (d : DiffDelta) (r : RenameTable) (c : ChangeTable) (p : Path),
      d.status = Delta.deleted → d.old = some p →
      process_delta d r c = some (r, bump c p)) ∧
    (∀ (d : DiffDelta) (r : RenameTable) (c : ChangeTable) (po pn : Path),
      (d.status = Delta.renamed ∨ d.status = Delta.typechange) →
      d.old = some po → d.new = some pn →
      process_delta d r c = some (insertT r po pn, bump c pn)) ∧
    (∀ (c : ChangeTable) (p : Path),
      lookupT (bump c p) p = some ((lookupT c p).getD 0 + 1) ∧
      ∀ q, p ≠ q → lookupT (bump c p) q = lookupT c q) := by
  refine ⟨?_, ?_, ?_, ?_, ?_⟩
  · rintro ⟨o, n, s⟩ r c hdisc
    cases s <;> simp_all [isDiscarded, process_delta]
  · rintro ⟨o, n, s⟩ r c p hs hn
    rcases hs with hs | hs <;> (cases hs; cases hn; simp [process_delta])
  · rintro ⟨o, n, s⟩ r c p hs ho
    cases hs; cases ho; simp [process_delta]
  · rintro ⟨o, n, s⟩ r c po pn hs ho hn
    rcases hs with hs | hs <;> (cases hs; cases ho; cases hn; simp [process_delta])
  · intro c p
    constructor
    · simp [lookupT_bump]
    · intro q hpq
      simp [lookupT_bump, hpq]

/-- Witness for C1, exercising every branch at concrete inputs. -/
theorem c1_delta_classification_witness :
    process_delta ⟨some "a.txt", some "a.txt", Delta.unmodified⟩ [] [] = some ([], []) ∧
    process_delta ⟨none, some "a.txt", Delta.added⟩ [] [] =
      some ([], bump [] "a.txt") ∧
    process_delta ⟨some "b.txt", none, Delta.deleted⟩ [] [] =
      some ([], bump [] "b.txt") ∧
    process_delta ⟨some "a.txt", some "b.txt", Delta.renamed⟩ [] [] =
      some (insertT [] "a.txt" "b.txt", bump [] "b.txt") ∧
    lookupT (bump [] "a.txt") "a.txt" = some ((lookupT [] "a.txt").getD 0 + 1) :=
  ⟨c1_delta_classification.1 ⟨some "a.txt", some "a.txt", Delta.unmodified⟩ [] [] rfl,
   c1_delta_classification.2.1 ⟨none, some "a.txt", Delta.added⟩ [] [] "a.txt"
     (Or.inl rfl) rfl,
   c1_delta_classification.2.2.1 ⟨some "b.txt", none, Delta.deleted⟩ [] [] "b.txt"
     rfl rfl,
   c1_delta_classification.2.2.2.1 ⟨some "a.txt", some "b.txt", Delta.renamed⟩ [] []
     "a.txt" "b.txt" (Or.inl rfl) rfl rfl,
   (c1_delta_classification.2.2.2.2 [] "a.txt").1⟩


section ClaimC6

/-! Claims C6 and C8: the commit selector. -/

lemma mem_commits_in_date_range {fromT toT : Int} {walk : List Commit} {c : Commit} :
    c ∈ commits_in_date_range fromT toT walk ↔
      c ∈ walk ∧ ∃ t, git2_time_to_offset c.time = some t ∧ fromT ≤ t ∧ t ≤ toT := by
  simp only [commits_in_date_range, List.mem_map, List.mem_filter, List.mem_filterMap,
    Option.map_eq_some', decide_eq_true_eq]
  constructor
  · rintro ⟨⟨c', t⟩, ⟨hmem, hrange⟩, rfl⟩
    obtain ⟨c'', hc'', t', ht', heq⟩ := hmem
    cases heq
    exact ⟨hc'', _, ht', hrange⟩
  · rintro ⟨hc, t, ht, hrange⟩
    exact ⟨(c, t), ⟨⟨c, hc, t, ht, rfl⟩, hrange⟩, rfl⟩

end ClaimC6

/-- C6: every commit the selector emits has a normalizable authorship time
lying inside the inclusive window, no commit with a valid timestamp outside
the window is emitted, and an inverted window yields an empty output. -/
theorem c6_selector_range (fromT toT : Int) (walk : List Commit) :
    (∀ c ∈ commits_in_date_range fromT toT walk,
      ∃ t, git2_time_to_offset c.time = some t ∧ fromT ≤ t ∧ t ≤ toT) ∧
    (∀ (c : Commit) (t : Int), git2_time_to_offset c.time = some t →
      ¬(fromT ≤ t ∧ t ≤ toT) → c ∉ commits_in_date_range fromT toT walk) ∧
    (toT < fromT → commits_in_date_range fromT toT walk = []) := by
  refine ⟨?_, ?_, ?_⟩
  · intro c hc
    exact (mem_commits_in_date_range.mp hc).2
  · intro c t ht hout hc
    obtain ⟨_, t', ht', hrange⟩ := mem_commits_in_date_range.mp hc
    rw [ht] at ht'
    cases ht'
    exact hout hrange
  · intro hinv
    have : ∀ c : Commit, c ∉ commits_in_date_range fromT toT walk := by
      intro c hc
      obtain ⟨_, t, _, h1, h2⟩ := mem_commits_in_date_range.mp hc
      omega
    exact List.eq_nil_iff_forall_not_mem.mpr this

/-- Witness for C6 at a concrete window and walk: the in-range commit is
kept with its time, the out-of-range commit is rejected, and the inverted
window is empty. -/
theorem c6_selector_range_witness :
    (∀ c ∈ commits_in_date_range 0 10 [⟨0, ⟨5, 0⟩⟩, ⟨1, ⟨20, 0⟩⟩],
      ∃ t, git2_time_to_offset c.time = some t ∧ 0 ≤ t ∧ t ≤ 10) ∧
    (⟨1, ⟨20, 0⟩⟩ : Commit) ∉ commits_in_date_range 0 10 [⟨0, ⟨5, 0⟩⟩, ⟨1, ⟨20, 0⟩⟩] ∧
    commits_in_date_range 10 0 [⟨0, ⟨5, 0⟩⟩, ⟨1, ⟨20, 0⟩⟩] = [] := by
  have h := c6_selector_range 0 10 [⟨0, ⟨5, 0⟩⟩, ⟨1, ⟨20, 0⟩⟩]
  have h' := c6_selector_range 10 0 [⟨0, ⟨5, 0⟩⟩, ⟨1, ⟨20, 0⟩⟩]
  exact ⟨h.1, h.2.1 ⟨1, ⟨20, 0⟩⟩ 20 (by decide) (by decide), h'.2.2 (by decide)⟩

/-- C8: a commit whose timestamp cannot be normalized is silently dropped
from the selector output, and the rest of the traversal is unaffected. -/
theorem c8_bad_timestamp_skipped (fromT toT : Int) (w1 w2 : List Commit) (c : Commit)
    (h : git2_time_to_offset c.time = none) :
    commits_in_date_range fromT toT (w1 ++ c :: w2) =
      commits_in_date_range fromT toT (w1 ++ w2) := by
  simp [commits_in_date_range, List.filterMap_append, List.filterMap_cons, h]

/-- Witness for C8: a commit whose Unix timestamp exceeds the representable
maximum is dropped while its neighbours survive the traversal. -/
theorem c8_bad_timestamp_skipped_witness :
    commits_in_date_range 0 10 [⟨0, ⟨5, 0⟩⟩, ⟨1, ⟨253402300800, 0⟩⟩, ⟨2, ⟨7, 0⟩⟩] =
      commits_in_date_range 0 10 [⟨0, ⟨5, 0⟩⟩, ⟨2, ⟨7, 0⟩⟩] :=
  c8_bad_timestamp_skipped 0 10 [⟨0, ⟨5, 0⟩⟩] [⟨2, ⟨7, 0⟩⟩] ⟨1, ⟨253402300800, 0⟩⟩
    (by decide)

section ClaimC7

/-! Claim C7: the commit pairer. -/

lemma pair_commits_length : ∀ l : List Commit, (pair_commits l).length = l.length
  | [] => rfl
  | [_] => rfl
  | _ :: b :: rest => by
    simp only [pair_commits, List.length_cons]
    rw [pair_commits_length (b :: rest)]
    simp

lemma pair_commits_getElem? :
    ∀ (l : List Commit) (i : Nat), i < l.length →
      (pair_commits l)[i]? = (l[i]?).map fun c => (c, l[i + 1]?)
  | [], i, h => by simp at h
  | [a], 0, _ => by simp [pair_commits]
  | [_], i + 1, h => by simp at h
  | a :: b :: rest, 0, _ => by simp [pair_commits]
  | _ :: b :: rest, i + 1, h => by
    have ih := pair_commits_getElem? (b :: rest) i (by simpa using h)
    simpa [pair_commits] using ih

end ClaimC7

/-- C7: on a sequence of length N the pairer emits exactly N pairs; the i-th
pair carries the i-th input commit as its newer element and the following
input commit, when it exists, as its older element; the last pair has an
absent older element; the empty input yields no output. -/
theorem c7_pair_commits_shape (l : List Commit) :
    (pair_commits l).length = l.length ∧
    pair_commits ([] : List Commit) = [] ∧
    (∀ i, i < l.length →
      (pair_commits l)[i]? = (l[i]?).map fun c => (c, l[i + 1]?)) ∧
    (∀ i, i + 1 = l.length →
      (pair_commits l)[i]? = (l[i]?).map fun c => (c, none)) := by
  refine ⟨pair_commits_length l, rfl, pair_commits_getElem? l, ?_⟩
  intro i hi
  have h := pair_commits_getElem? l i (by omega)
  rw [h, List.getElem?_eq_none (by omega)]

/-- Witness for C7 on a two-commit sequence: two pairs, first paired with the
second commit, last paired with nothing. -/
theorem c7_pair_commits_shape_witness :
    (pair_commits [⟨0, ⟨0, 0⟩⟩, ⟨1, ⟨5, 0⟩⟩]).length = 2 ∧
    (pair_commits [⟨0, ⟨0, 0⟩⟩, ⟨1, ⟨5, 0⟩⟩])[0]? =
      some (⟨0, ⟨0, 0⟩⟩, some ⟨1, ⟨5, 0⟩⟩) ∧
    (pair_commits [⟨0, ⟨0, 0⟩⟩, ⟨1, ⟨5, 0⟩⟩])[1]? = some (⟨1, ⟨5, 0⟩⟩, none) := by
  have h := c7_pair_commits_shape [⟨0, ⟨0, 0⟩⟩, ⟨1, ⟨5, 0⟩⟩]
  refine ⟨by simpa using h.1, by simpa using h.2.2.1 0 (by decide), ?_⟩
  simpa using h.2.2.2 1 (by decide)


section ClaimC9

/-! Claim C9: the merge reducer is associative and commutative. -/

lemma lookupT_eq_none_iff {β : Type} {m : List (Path × β)} {k : Path} :
    lookupT m k = none ↔ k ∉ m.map Prod.fst := by
  induction m with
  | nil => simp [lookupT]
  | cons hd tl ih =>
    obtain ⟨k', v'⟩ := hd
    by_cases h : k' = k
    · subst h
      simp [lookupT]
    · simp only [lookupT, if_neg h, List.map_cons, List.mem_cons]
      rw [ih]
      have hne : ¬ k = k' := fun e => h e.symm
      tauto

lemma mem_keys_insertT {β : Type} (m : List (Path × β)) (k : Path) (v : β) (q : Path) :
    q ∈ (insertT m k v).map Prod.fst ↔ q ∈ m.map Prod.fst ∨ q = k := by
  induction m with
  | nil => simp [insertT]
  | cons hd tl ih =>
    obtain ⟨k', v'⟩ := hd
    by_cases h : k' = k
    · subst h
      simp [insertT]
      tauto
    · simp [insertT, h, ih]
      tauto

lemma nodupKeys_insertT {β : Type} (m : List (Path × β)) (k : Path) (v : β)
    (h : NodupKeys m) : NodupKeys (insertT m k v) := by
  induction m with
  | nil => simp [insertT, NodupKeys]
  | cons hd tl ih =>
    obtain ⟨k', v'⟩ := hd
    rw [NodupKeys, List.map_cons, List.nodup_cons] at h
    by_cases hk : k' = k
    · subst hk
      have hrw : insertT ((k', v') :: tl) k' v = (k', v) :: tl := by
        simp [insertT]
      rw [hrw, NodupKeys, List.map_cons, List.nodup_cons]
      exact h
    · rw [NodupKeys]
      simp only [insertT, if_neg hk, List.map_cons, List.nodup_cons]
      refine ⟨?_, ih h.2⟩
      rw [mem_keys_insertT]
      rintro (hmem | rfl)
      · exact h.1 hmem
      · exact hk rfl

lemma nodupKeys_bumpBy (m : ChangeTable) (k : Path) (v : Nat) (h : NodupKeys m) :
    NodupKeys (bumpBy m k v) :=
  nodupKeys_insertT m k _ h

lemma nodupKeys_mergeT : ∀ (m₂ m₁ : ChangeTable), NodupKeys m₁ →
    NodupKeys (mergeT m₁ m₂)
  | [], _, h => h
  | kv :: rest, m₁, h =>
    nodupKeys_mergeT rest (bumpBy m₁ kv.1 kv.2) (nodupKeys_bumpBy m₁ kv.1 kv.2 h)

lemma lookupT_mergeT : ∀ (m₂ m₁ : ChangeTable), NodupKeys m₂ → ∀ p,
    lookupT (mergeT m₁ m₂) p =
      if lookupT m₁ p = none ∧ lookupT m₂ p = none then none
      else some ((lookupT m₁ p).getD 0 + (lookupT m₂ p).getD 0)
  | [], m₁, _, p => by
    rcases e : lookupT m₁ p with _ | v <;> simp [mergeT, lookupT, e]
  | (k, v) :: tl, m₁, h, p => by
    rw [NodupKeys, List.map_cons, List.nodup_cons] at h
    have htl : NodupKeys tl := h.2
    have hknone : lookupT tl k = none := lookupT_eq_none_iff.mpr h.1
    have hstep : mergeT m₁ ((k, v) :: tl) = mergeT (bumpBy m₁ k v) tl := rfl
    rw [hstep, lookupT_mergeT tl (bumpBy m₁ k v) htl p]
    by_cases hkp : k = p
    · subst hkp
      rcases e : lookupT m₁ k with _ | w <;>
        simp [lookupT_bumpBy, lookupT, e, hknone]
    · rcases e : lookupT m₁ p with _ | w <;>
        rcases etl : lookupT tl p with _ | w' <;>
        simp [lookupT_bumpBy, lookupT, e, etl, hkp]

end ClaimC9

/-- C9: the binary table merge is associative and commutative up to table
equality, so any grouping and order of merges agrees; merging the tables of
the a/b example in different groupings and orders yields the table with a
mapped to 3 and b mapped to 1; and reducing an empty collection of tables
yields the empty table. -/
theorem c9_merge_assoc_comm :
    (∀ m₁ m₂ m₃ : ChangeTable, NodupKeys m₂ → NodupKeys m₃ →
      tablesEq (mergeT (mergeT m₁ m₂) m₃) (mergeT m₁ (mergeT m₂ m₃))) ∧
    (∀ m₁ m₂ : ChangeTable, NodupKeys m₁ → NodupKeys m₂ →
      tablesEq (mergeT m₁ m₂) (mergeT m₂ m₁)) ∧
    mergeT (mergeT [("a", 1)] [("a", 2)]) [("b", 1)] = [("a", 3), ("b", 1)] ∧
    mergeT [("a", 1)] (mergeT [("a", 2)] [("b", 1)]) = [("a", 3), ("b", 1)] ∧
    tablesEq (mergeT (mergeT [("b", 1)] [("a", 2)]) [("a", 1)])
      [("a", 3), ("b", 1)] ∧
    reduce_with [] = [] := by
  refine ⟨?_, ?_, by decide, by decide, ?_, rfl⟩
  · intro m₁ m₂ m₃ h₂ h₃ p
    have hm23 : NodupKeys (mergeT m₂ m₃) := nodupKeys_mergeT m₃ m₂ h₂
    rw [lookupT_mergeT m₃ (mergeT m₁ m₂) h₃ p, lookupT_mergeT m₂ m₁ h₂ p,
      lookupT_mergeT (mergeT m₂ m₃) m₁ hm23 p, lookupT_mergeT m₃ m₂ h₃ p]
    rcases e₁ : lookupT m₁ p with _ | v₁ <;>
      rcases e₂ : lookupT m₂ p with _ | v₂ <;>
      rcases e₃ : lookupT m₃ p with _ | v₃ <;>
      simp <;> omega
  · intro m₁ m₂ h₁ h₂ p
    rw [lookupT_mergeT m₂ m₁ h₂ p, lookupT_mergeT m₁ m₂ h₁ p]
    rcases e₁ : lookupT m₁ p with _ | v₁ <;>
      rcases e₂ : lookupT m₂ p with _ | v₂ <;>
      simp <;> omega
  · intro p
    by_cases ha : "a" = p
    · subst ha
      decide
    · by_cases hb : "b" = p
      · subst hb
        decide
      · simp [mergeT, bumpBy, insertT, lookupT, ha, hb]

/-- Witness for C9: associativity and commutativity applied to the concrete
tables of the claim. -/
theorem c9_merge_assoc_comm_witness :
    tablesEq (mergeT (mergeT [("a", 1)] [("a", 2)]) [("b", 1)])
      (mergeT [("a", 1)] (mergeT [("a", 2)] [("b", 1)])) ∧
    tablesEq (mergeT [("a", 1)] [("b", 1)]) (mergeT [("b", 1)] [("a", 1)]) :=
  ⟨c9_merge_assoc_comm.1 [("a", 1)] [("a", 2)] [("b", 1)] (by simp [NodupKeys])
     (by simp [NodupKeys]),
   c9_merge_assoc_comm.2.1 [("a", 1)] [("b", 1)] (by simp [NodupKeys])
     (by simp [NodupKeys])⟩


section ClaimC10

/-! Claim C10: counts are positive and total the countable deltas. -/

lemma mem_insertT {β : Type} :
    ∀ (m : List (Path × β)) (k q : Path) (v w : β),
      (q, w) ∈ insertT m k v → (q, w) ∈ m ∨ (q = k ∧ w = v)
  | [], k, q, v, w, h => by
    simp only [insertT, List.mem_singleton, Prod.mk.injEq] at h
    exact Or.inr h
  | (k', v') :: tl, k, q, v, w, h => by
    by_cases hk : k' = k
    · subst hk
      rw [show insertT ((k', v') :: tl) k' v = (k', v) :: tl from by simp [insertT]]
        at h
      rcases List.mem_cons.mp h with h | h
      · rw [Prod.mk.injEq] at h
        exact Or.inr h
      · exact Or.inl (List.mem_cons_of_mem _ h)
    · rw [show insertT ((k', v') :: tl) k v = (k', v') :: insertT tl k v from by
        simp [insertT, hk]] at h
      rcases List.mem_cons.mp h with h | h
      · exact Or.inl (List.mem_cons.mpr (Or.inl h))
      · rcases mem_insertT tl k q v w h with h' | h'
        · exact Or.inl (List.mem_cons_of_mem _ h')
        · exact Or.inr h'

lemma sumValues_bump (m : ChangeTable) (k : Path) :
    sumValues (bump m k) = sumValues m + 1 := by
  induction m with
  | nil => simp [bump, bumpBy, insertT, lookupT, sumValues]
  | cons hd tl ih =>
    obtain ⟨k', v'⟩ := hd
    by_cases hk : k' = k
    · subst hk
      simp only [bump, bumpBy, lookupT, if_pos rfl, insertT, Option.getD_some]
      simp [sumValues]
      omega
    · have h1 : lookupT ((k', v') :: tl) k = lookupT tl k := by
        simp [lookupT, hk]
      simp only [bump, bumpBy, h1, insertT, if_neg hk] at *
      simp only [sumValues, List.map_cons, List.sum_cons] at *
      omega

lemma process_delta_shape {d : DiffDelta} {r r' : RenameTable} {c c' : ChangeTable}
    (h : process_delta d r c = some (r', c')) :
    (isDiscarded d = true ∧ r' = r ∧ c' = c) ∨
    (isCounted d = true ∧ ∃ k, c' = bump c k) := by
  obtain ⟨o, n, s⟩ := d
  cases s
  case unmodified | ignored | untracked | unreadable | conflicted =>
    simp only [process_delta] at h
    cases h
    exact Or.inl ⟨rfl, rfl, rfl⟩
  case added | copied =>
    cases n with
    | none => simp [process_delta] at h
    | some p =>
      simp only [process_delta] at h
      cases h
      exact Or.inr ⟨rfl, p, rfl⟩
  case deleted =>
    cases o with
    | none => simp [process_delta] at h
    | some p =>
      simp only [process_delta] at h
      cases h
      exact Or.inr ⟨rfl, p, rfl⟩
  case renamed | typechange =>
    cases o with
    | none => cases n <;> simp [process_delta] at h
    | some po =>
      cases n with
      | none => simp [process_delta] at h
      | some pn =>
        simp only [process_delta] at h
        cases h
        exact Or.inr ⟨rfl, pn, rfl⟩
  case modified =>
    cases o with
    | none => simp [process_delta] at h
    | some p =>
      simp only [process_delta] at h
      cases hres : resolve r p with
      | none =>
        rw [hres] at h
        exact absurd h (by simp)
      | some q =>
        rw [hres] at h
        cases h
        exact Or.inr ⟨rfl, q, rfl⟩

lemma counted_not_discarded (d : DiffDelta) :
    isCounted d = true ↔ isDiscarded d = false := by
  obtain ⟨o, n, s⟩ := d
  cases s <;> simp [isCounted, isDiscarded]

lemma lookupT_bump_le (c : ChangeTable) (k p : Path) :
    (lookupT c p).getD 0 ≤ (lookupT (bump c k) p).getD 0 := by
  rw [lookupT_bump]
  by_cases hk : k = p
  · subst hk
    simp
  · simp [hk]

lemma run_deltas_invariant :
    ∀ (ds : List DiffDelta) (r : RenameTable) (c : ChangeTable)
      (r' : RenameTable) (c' : ChangeTable), run_deltas ds r c = some (r', c') →
      sumValues c' = sumValues c + (ds.filter isCounted).length ∧
      (∀ q w, (q, w) ∈ c' → (q, w) ∈ c ∨ 1 ≤ w) ∧
      (∀ p, (lookupT c p).getD 0 ≤ (lookupT c' p).getD 0)
  | [], r, c, r', c', h => by
    simp only [run_deltas] at h
    cases h
    exact ⟨by simp, fun q w hq => Or.inl hq, fun p => le_refl _⟩
  | d :: ds, r, c, r', c', h => by
    simp only [run_deltas] at h
    cases hd : process_delta d r c with
    | none => rw [hd] at h; cases h
    | some rc =>
      obtain ⟨r₁, c₁⟩ := rc
      rw [hd] at h
      have ih := run_deltas_invariant ds r₁ c₁ r' c' h
      rcases process_delta_shape hd with ⟨hdisc, rfl, rfl⟩ | ⟨hcnt, k, rfl⟩
      · have hf : isCounted d = false := by
          obtain ⟨o, n, s⟩ := d
          cases s <;> simp_all [isCounted, isDiscarded]
        refine ⟨?_, ih.2.1, ih.2.2⟩
        rw [ih.1, List.filter_cons, hf]
        simp
      · refine ⟨?_, ?_, ?_⟩
        · rw [ih.1, sumValues_bump, List.filter_cons, hcnt]
          simp
          omega
        · intro q w hq
          rcases ih.2.1 q w hq with hq' | hw
          · rcases mem_insertT c k q _ w hq' with hq'' | ⟨rfl, rfl⟩
            · exact Or.inl hq''
            · right
              omega
          · exact Or.inr hw
        · intro p
          exact le_trans (lookupT_bump_le c k p) (ih.2.2 p)

end ClaimC10

/-- C10: whenever `get_files_changed` succeeds, every entry of the resulting
change table has a count of at least one, the counts sum to the number of
deltas of a countable kind (added, copied, deleted, renamed, type-changed,
modified), and processing further deltas never decreases any count. -/
theorem c10_change_table_invariant (deltas : List DiffDelta)
    (renames r' : RenameTable) (ch : ChangeTable)
    (h : get_files_changed deltas renames = some (r', ch)) :
    (∀ q w, (q, w) ∈ ch → 1 ≤ w) ∧
    sumValues ch = (deltas.filter isCounted).length ∧
    (∀ (ds : List DiffDelta) (r'' : RenameTable) (c'' : ChangeTable),
      run_deltas ds r' ch = some (r'', c'') →
      ∀ p, (lookupT ch p).getD 0 ≤ (lookupT c'' p).getD 0) := by
  have hinv := run_deltas_invariant deltas renames [] r' ch h
  refine ⟨?_, ?_, ?_⟩
  · intro q w hq
    rcases hinv.2.1 q w hq with hq' | hw
    · cases hq'
    · exact hw
  · rw [hinv.1]
    simp [sumValues]
  · intro ds r'' c'' h'' p
    exact (run_deltas_invariant ds r' ch r'' c'' h'').2.2 p

/-- Witness for C10 on a concrete diff with two countable deltas and one
discarded delta. -/
theorem c10_change_table_invariant_witness :
    (∀ q w, (q, w) ∈ [("a.txt", (2 : Nat))] → 1 ≤ w) ∧
    sumValues [("a.txt", 2)] =
      (([⟨none, some "a.txt", Delta.added⟩,
         ⟨some "a.txt", some "a.txt", Delta.modified⟩,
         ⟨some "z.txt", some "z.txt", Delta.unmodified⟩] :
        List DiffDelta).filter isCounted).length := by
  have h := c10_change_table_invariant
    [⟨none, some "a.txt", Delta.added⟩,
     ⟨some "a.txt", some "a.txt", Delta.modified⟩,
     ⟨some "z.txt", some "z.txt", Delta.unmodified⟩]
    [] [] [("a.txt", 2)] (by decide)
  exact ⟨h.1, h.2.1⟩

section ClaimC2

/-! Claim C2: a modified delta is attributed to the terminal path of the
rename chain starting at its old path. The development shows that fuel
`t.length + 1` in `resolve` is enough for every terminating chain: a chain
that reaches a non-key never revisits a path, its visited keys are distinct
keys of the table, hence the chain is no longer than the table. -/

lemma chain_snoc (t : RenameTable) :
    ∀ (l : List Path) (p b c : Path),
      IsChain t p l b → lookupT t b = some c → IsChain t p (l ++ [c]) c
  | [], p, b, c, h, hbc => by
    have hpb : p = b := h
    subst hpb
    exact ⟨hbc, rfl⟩
  | x :: xs, p, b, c, h, hbc => ⟨h.1, chain_snoc t xs x b c h.2 hbc⟩

lemma exists_chain_of_reflTransGen {t : RenameTable} {p q : Path}
    (h : Relation.ReflTransGen (renStep t) p q) : ∃ l, IsChain t p l q := by
  induction h with
  | refl => exact ⟨[], rfl⟩
  | tail _ hbc ih =>
    obtain ⟨l, hl⟩ := ih
    exact ⟨l ++ [_], chain_snoc t l p _ _ hl hbc⟩

lemma chain_suffix (t : RenameTable) :
    ∀ (l : List Path) (p q x : Path), IsChain t p l q → x ∈ l →
      ∃ l', l'.length < l.length ∧ IsChain t x l' q
  | [], _, _, x, _, hx => absurd hx (List.not_mem_nil x)
  | y :: ys, p, q, x, h, hx => by
    rcases List.mem_cons.mp hx with rfl | hx'
    · exact ⟨ys, Nat.lt_succ_self _, h.2⟩
    · obtain ⟨l', hlen, hch⟩ := chain_suffix t ys y q x h.2 hx'
      exact ⟨l', Nat.lt_trans hlen (Nat.lt_succ_self _), hch⟩

lemma chain_unique (t : RenameTable) :
    ∀ (l₁ : List Path) (p q₁ : Path) (l₂ : List Path) (q₂ : Path),
      IsChain t p l₁ q₁ → lookupT t q₁ = none → IsChain t p l₂ q₂ →
      l₁.length ≤ l₂.length → l₁ = l₂ ∧ q₁ = q₂
  | [], p, q₁, l₂, q₂, h₁, hterm, h₂, _ => by
    have hpq : p = q₁ := h₁
    subst hpq
    cases l₂ with
    | nil => exact ⟨rfl, h₂⟩
    | cons y ys => exact absurd h₂.1 (by simp [hterm])
  | x :: xs, p, q₁, l₂, q₂, h₁, hterm, h₂, hlen => by
    cases l₂ with
    | nil => simp at hlen
    | cons y ys =>
      have hxy : x = y := Option.some.inj (h₁.1.symm.trans h₂.1)
      subst hxy
      obtain ⟨hl, hq⟩ :=
        chain_unique t xs x q₁ ys q₂ h₁.2 hterm h₂.2 (by simpa using hlen)
      exact ⟨by rw [hl], hq⟩

lemma chain_nodup (t : RenameTable) :
    ∀ (l : List Path) (p q : Path), IsChain t p l q → lookupT t q = none →
      (p :: l).Nodup
  | [], p, _, _, _ => by simp
  | x :: xs, p, q, h, hterm => by
    have ih := chain_nodup t xs x q h.2 hterm
    rw [List.nodup_cons]
    refine ⟨?_, ih⟩
    intro hmem
    obtain ⟨l', hlen, hch⟩ := chain_suffix t (x :: xs) p q p h hmem
    obtain ⟨heq, _⟩ :=
      chain_unique t l' p q (x :: xs) q hch hterm h (Nat.le_of_lt hlen)
    rw [heq] at hlen
    exact Nat.lt_irrefl _ hlen

lemma keys_of_lookupT {β : Type} {t : List (Path × β)} {a : Path} {b : β}
    (h : lookupT t a = some b) : a ∈ t.map Prod.fst := by
  by_contra hmem
  rw [← lookupT_eq_none_iff] at hmem
  simp [hmem] at h

lemma chain_all_keys (t : RenameTable) :
    ∀ (l : List Path) (p q : Path), IsChain t p l q → l ≠ [] →
      ∀ z ∈ p :: l.dropLast, ∃ y, lookupT t z = some y
  | [], _, _, _, hne => absurd rfl hne
  | [x], p, _, h, _ => by
    intro z hz
    simp only [List.dropLast_single, List.mem_singleton] at hz
    subst hz
    exact ⟨x, h.1⟩
  | x :: y :: xs, p, q, h, _ => by
    intro z hz
    rw [show (x :: y :: xs).dropLast = x :: (y :: xs).dropLast from rfl] at hz
    rcases List.mem_cons.mp hz with rfl | hz'
    · exact ⟨x, h.1⟩
    · exact chain_all_keys t (y :: xs) x q h.2 (by simp) z hz'

lemma chain_length_le (t : RenameTable) (l : List Path) (p q : Path)
    (h : IsChain t p l q) (hterm : lookupT t q = none) : l.length ≤ t.length := by
  cases l with
  | nil => simp
  | cons x xs =>
    have hsubl : List.Sublist (p :: (x :: xs).dropLast) (p :: x :: xs) :=
      ((x :: xs).dropLast_sublist).cons₂ p
    have hnd : (p :: (x :: xs).dropLast).Nodup :=
      (chain_nodup t (x :: xs) p q h hterm).sublist hsubl
    have hsub : ∀ z ∈ p :: (x :: xs).dropLast, z ∈ t.map Prod.fst := by
      intro z hz
      obtain ⟨y, hy⟩ := chain_all_keys t (x :: xs) p q h (by simp) z hz
      exact keys_of_lookupT hy
    have hcard : (p :: (x :: xs).dropLast).length ≤ (t.map Prod.fst).length := by
      calc (p :: (x :: xs).dropLast).length
          = (p :: (x :: xs).dropLast).toFinset.card :=
            (List.toFinset_card_of_nodup hnd).symm
        _ ≤ (t.map Prod.fst).toFinset.card := by
            apply Finset.card_le_card
            intro z hz
            rw [List.mem_toFinset] at *
            exact hsub z (by simpa using hz)
        _ ≤ (t.map Prod.fst).length := List.toFinset_card_le _
    have hdlen : (p :: (x :: xs).dropLast).length = (x :: xs).length := by
      simp [List.length_dropLast]
    rw [hdlen] at hcard
    simpa using hcard

lemma resolveChain_of_chain (t : RenameTable) :
    ∀ (l : List Path) (p q : Path) (fuel : Nat),
      IsChain t p l q → lookupT t q = none → l.length < fuel →
      resolveChain t fuel p = some q
  | [], p, q, fuel, h, hterm, hf => by
    have hpq : p = q := h
    subst hpq
    cases fuel with
    | zero => exact absurd hf (by simp)
    | succ n => simp [resolveChain, hterm]
  | x :: xs, p, q, fuel, h, hterm, hf => by
    cases fuel with
    | zero => exact absurd hf (by simp)
    | succ n =>
      have hstep : resolveChain t (n + 1) p = resolveChain t n x := by
        simp [resolveChain, h.1]
      rw [hstep]
      exact resolveChain_of_chain t xs x q n h.2 hterm (by simpa using hf)

lemma resolve_of_reflTransGen {t : RenameTable} {p q : Path}
    (h : Relation.ReflTransGen (renStep t) p q) (hterm : lookupT t q = none) :
    resolve t p = some q := by
  obtain ⟨l, hl⟩ := exists_chain_of_reflTransGen h
  exact resolveChain_of_chain t l p q (t.length + 1) hl hterm
    (Nat.lt_succ_of_le (chain_length_le t l p q hl hterm))

end ClaimC2

/-- C2: a modified delta counts the path obtained from its old path by
repeatedly replacing the current path with its image in the rename table
until the current path is no longer a key; in particular, for a two-step
chain already recorded in the table, a modified delta on the oldest name is
attributed to the terminal name of the chain, not an intermediate one. -/
theorem c2_modified_resolves_to_terminal :
    (∀ (t : RenameTable) (c : ChangeTable) (d : DiffDelta) (p q : Path),
      d.status = Delta.modified → d.old = some p →
      Relation.ReflTransGen (renStep t) p q → lookupT t q = none →
      process_delta d t c = some (t, bump c q)) ∧
    (∀ (t : RenameTable) (c : ChangeTable) (a b e : Path),
      lookupT t a = some b → lookupT t b = some e → lookupT t e = none →
      process_delta ⟨some a, some a, Delta.modified⟩ t c = some (t, bump c e)) := by
  have main : ∀ (t : RenameTable) (c : ChangeTable) (d : DiffDelta) (p q : Path),
      d.status = Delta.modified → d.old = some p →
      Relation.ReflTransGen (renStep t) p q → lookupT t q = none →
      process_delta d t c = some (t, bump c q) := by
    rintro t c ⟨o, n, s⟩ p q hs ho hchain hterm
    cases hs
    cases ho
    have hres := resolve_of_reflTransGen hchain hterm
    simp [process_delta, hres]
  refine ⟨main, ?_⟩
  intro t c a b e hab hbe hterm
  refine main t c ⟨some a, some a, Delta.modified⟩ a e rfl rfl ?_ hterm
  exact Relation.ReflTransGen.head hab (Relation.ReflTransGen.single hbe)

/-- Witness for C2: with the chain a to b to c recorded, a modified delta on
a is counted under c. -/
theorem c2_modified_resolves_to_terminal_witness :
    process_delta ⟨some "a.txt", some "a.txt", Delta.modified⟩
      [("a.txt", "b.txt"), ("b.txt", "c.txt")] [] =
      some ([("a.txt", "b.txt"), ("b.txt", "c.txt")], bump [] "c.txt") :=
  c2_modified_resolves_to_terminal.2 [("a.txt", "b.txt"), ("b.txt", "c.txt")] []
    "a.txt" "b.txt" "c.txt" (by decide) (by decide) (by decide)

section ClaimC4

/-! Claim C4: a rename ping-pong (a to b, then b back to a in a newer
commit) makes the aggregator build a cyclic rename table, on which the
resolution loop of the source never terminates. -/

lemma cyc_resolveChain_none :
    ∀ fuel : Nat,
      resolveChain [("b.txt", "a.txt"), ("a.txt", "b.txt")] fuel "a.txt" = none ∧
      resolveChain [("b.txt", "a.txt"), ("a.txt", "b.txt")] fuel "b.txt" = none
  | 0 => ⟨rfl, rfl⟩
  | n + 1 => by
    have ih := cyc_resolveChain_none n
    have ha : lookupT [("b.txt", "a.txt"), ("a.txt", "b.txt")] "a.txt" =
        some "b.txt" := by decide
    have hb : lookupT [("b.txt", "a.txt"), ("a.txt", "b.txt")] "b.txt" =
        some "a.txt" := by decide
    constructor
    · show resolveChain _ (n + 1) "a.txt" = none
      simp only [resolveChain, ha]
      exact ih.2
    · show resolveChain _ (n + 1) "b.txt" = none
      simp only [resolveChain, hb]
      exact ih.1

end ClaimC4

/-- C4 is violated by the code: processing, newest-first, a rename of b.txt
to a.txt followed by the older rename of a.txt to b.txt yields the reachable
rename table mapping b.txt to a.txt and a.txt to b.txt, a cycle from which
the chain-follow loop never reaches a non-key for any amount of fuel, so a
subsequent modified delta on a.txt makes the aggregation diverge. -/
theorem c4_rename_table_reaches_cycle :
    run_diffs [[⟨some "b.txt", some "a.txt", Delta.renamed⟩],
               [⟨some "a.txt", some "b.txt", Delta.renamed⟩]] [] =
      some ([("b.txt", "a.txt"), ("a.txt", "b.txt")],
            [[("a.txt", 1)], [("b.txt", 1)]]) ∧
    (∀ fuel : Nat,
      resolveChain [("b.txt", "a.txt"), ("a.txt", "b.txt")] fuel "a.txt" = none) ∧
    run_diffs [[⟨some "b.txt", some "a.txt", Delta.renamed⟩],
               [⟨some "a.txt", some "b.txt", Delta.renamed⟩],
               [⟨some "a.txt", some "a.txt", Delta.modified⟩]] [] = none :=
  ⟨by decide, fun fuel => (cyc_resolveChain_none fuel).1, by decide⟩

/-- C3 is violated by the code: on the three-commit scenario (newest-first:
rename old.txt to new.txt, modified old.txt, added old.txt) the added delta
is counted under the new path of its own delta without consulting the rename
table, so the merged result maps new.txt to 2 and old.txt to 1 instead of
mapping new.txt to 3. -/
theorem c3_scenario_add_not_resolved :
    pipeline [[⟨some "old.txt", some "new.txt", Delta.renamed⟩],
              [⟨some "old.txt", some "old.txt", Delta.modified⟩],
              [⟨none, some "old.txt", Delta.added⟩]] =
      some [("new.txt", 2), ("old.txt", 1)] ∧
    ¬ tablesEq [("new.txt", 2), ("old.txt", 1)] [("new.txt", 3)] := by
  refine ⟨by decide, fun hEq => ?_⟩
  have h := hEq "new.txt"
  simp [lookupT] at h

/-- C5 is violated by the code: main.rs feeds the diffs to the aggregator
through an unordered parallel iterator, and the aggregation result genuinely
depends on the processing order — the same two diffs aggregated newest-first
attribute both events to b.txt, while the opposite order leaves the modified
event on the stale name a.txt. -/
theorem c5_aggregation_order_dependent :
    pipeline [[⟨some "a.txt", some "b.txt", Delta.renamed⟩],
              [⟨some "a.txt", some "a.txt", Delta.modified⟩]] =
      some [("b.txt", 2)] ∧
    pipeline [[⟨some "a.txt", some "a.txt", Delta.modified⟩],
              [⟨some "a.txt", some "b.txt", Delta.renamed⟩]] =
      some [("a.txt", 1), ("b.txt", 1)] ∧
    ¬ tablesEq [("b.txt", 2)] [("a.txt", 1), ("b.txt", 1)] := by
  refine ⟨by decide, by decide, fun hEq => ?_⟩
  have h := hEq "a.txt"
  simp [lookupT] at h

end GitHeat
